import Mathlib

/-!
Verification of the streaming chat session engine of the solana-playground
assistant panel.

The development shallowly embeds the TypeScript sources:
  - `client/src/utils/storage.ts` (`ChatStorageManager`),
  - `client/src/services/openai.ts` (`OpenAIService.analyzeCode` and its
    prompt construction and stream-reading loop),
  - `client/src/components/Editor/ChatSidebar/ChatSideBar.tsx`
    (`formatMessage`, `handleSubmit`, `nextMessageIndex`, `loadingMap`).

JavaScript strings are modelled as lists of characters (`Str`), because the
engine's claims require executable, kernel-reducible string operations
(`split`, `trim`, `startsWith`, concatenation).  Each JS string operation
used by the sources is defined below with the semantics of the
corresponding `String.prototype` method (for the non-empty separators and
the inputs the code uses).
-/

namespace SolPg

/-- Model of a JavaScript string: the list of its characters. -/
abbrev Str := List Char

/-- Coerce a Lean string literal into the `Str` model. -/
def strOf (s : String) : Str := s.data

/-- Whitespace test used by the model of `String.prototype.trim`. -/
def isWsChar (c : Char) : Bool :=
  c == ' ' || c == '\t' || c == '\n' || c == '\r'

/-- Model of `s.trim()`: strip leading and trailing whitespace. -/
def jsTrim (s : Str) : Str :=
  ((s.dropWhile isWsChar).reverse.dropWhile isWsChar).reverse

/-- Model of `s.startsWith(sep)`. -/
def jsStartsWith (s sep : Str) : Bool := sep.isPrefixOf s

/-- Worker for `jsSplit`.  `fuel` bounds the number of steps (one step
consumes at least one character, so `s.length` suffices); `acc` holds the
current segment, reversed. -/
def jsSplitGo (sep : Str) : Nat → Str → Str → List Str
  | _, acc, [] => [acc.reverse]
  | 0, acc, rest => [acc.reverse ++ rest]
  | fuel + 1, acc, c :: rest =>
    if sep.isPrefixOf (c :: rest) && !sep.isEmpty then
      acc.reverse :: jsSplitGo sep fuel [] ((c :: rest).drop sep.length)
    else
      jsSplitGo sep fuel (c :: acc) rest

/-- Model of `s.split(sep)` for a non-empty separator `sep`: split on the
leftmost non-overlapping occurrences of `sep`. -/
def jsSplit (sep s : Str) : List Str := jsSplitGo sep s.length [] s

/-- Join a list of strings with a separator (inverse of `jsSplit` on its
output; model of `Array.prototype.join`). -/
def joinSep (sep : Str) : List Str → Str
  | [] => []
  | [x] => x
  | x :: y :: xs => x ++ sep ++ joinSep sep (y :: xs)

/-- ASCII lower-casing of one character (the fragment of
`String.prototype.toLowerCase` relevant to language names). -/
def toLowerChar (c : Char) : Char :=
  if 65 ≤ c.toNat ∧ c.toNat ≤ 90 then Char.ofNat (c.toNat + 32) else c

/-- Model of `s.toLowerCase()` (ASCII fragment). -/
def toLowerStr (s : Str) : Str := s.map toLowerChar

/-- Model of `s.includes(sub)`: some suffix of `s` has `sub` as a prefix. -/
def strContains (s sub : Str) : Bool := s.tails.any fun t => sub.isPrefixOf t

/-! ## History Store (`client/src/utils/storage.ts`) -/

/-- One user turn and its assistant turn
(`interface ChatHistory { prompt: string; response: string }`). -/
structure ChatHistory where
  prompt : Str
  response : Str
deriving DecidableEq

/-- Model of the browser `localStorage`: a partial map from keys to the
stored strings. -/
def LocalStorage := Str → Option Str

/-- `ChatStorageManager.getStorageKey`: prepend the fixed namespace. -/
def getStorageKey (filePath : Str) : Str := strOf "pg_chat_history_" ++ filePath

/-- `ChatStorageManager.saveHistory`: store `JSON.stringify(history)` under
the file's storage key.  The serializer is a parameter (`JSON.stringify`
is a platform primitive); the save is modelled as succeeding (the `catch`
branch only logs). -/
def saveHistory (stringify : List ChatHistory → Str) (ls : LocalStorage)
    (filePath : Str) (history : List ChatHistory) : LocalStorage :=
  fun k => if k = getStorageKey filePath then some (stringify history) else ls k

/-- `ChatStorageManager.loadHistory`: read the stored string and parse it;
a missing key, an empty (falsy) stored string, or a parse failure yields
`[]`.  The parser is a parameter (`JSON.parse` is a platform primitive);
`none` models a thrown parse error, recovered to `[]` by the `catch`. -/
def loadHistory (parseJson : Str → Option (List ChatHistory)) (ls : LocalStorage)
    (filePath : Str) : List ChatHistory :=
  match ls (getStorageKey filePath) with
  | none => []
  | some stored => if stored = [] then [] else (parseJson stored).getD []

/-- `ChatStorageManager.clearHistory`: remove the file's key. -/
def clearHistory (ls : LocalStorage) (filePath : Str) : LocalStorage :=
  fun k => if k = getStorageKey filePath then none else ls k

/-! ## Prompt Builder (`client/src/services/openai.ts`) -/

/-- Roles of the outbound chat messages. -/
inductive Role where
  | system
  | user
  | assistant
deriving DecidableEq

/-- One outbound message (`interface ChatMessage`). -/
structure ChatMessage where
  role : Role
  content : Str
deriving DecidableEq

/-- `const MAX_HISTORY_PAIRS = 4` — keep the last 4 pairs of messages. -/
def MAX_HISTORY_PAIRS : Nat := 4

/-- Model of `arr.slice(-n)` for `n ≥ 1`: the last `min n arr.length`
elements, in order. -/
def sliceLast (xs : List α) (n : Nat) : List α := xs.drop (xs.length - n)

/-- The history part of the outbound message list:
`previousMessages.slice(-windowSize).flatMap(({prompt, response}) =>
[{role:"user",content:prompt},{role:"assistant",content:response}])`.
In the source the window size is the constant `MAX_HISTORY_PAIRS`; it is a
parameter here so the window bound can be stated for every size. -/
def historyMessages (windowSize : Nat) (previousMessages : List ChatHistory) :
    List ChatMessage :=
  (sliceLast previousMessages windowSize).flatMap fun e =>
    [⟨Role.user, e.prompt⟩, ⟨Role.assistant, e.response⟩]

/-- Base text of the system prompt (the first template literal of
`getSystemPrompt`, before `.trim()`). -/
def systemPromptBase : Str := strOf "
You are an **advanced Solana development assistant** with extensive expertise in:
 • Anchor (Rust)
 • Native (Rust)
 • Seahorse (Python)
 • Client-side (TypeScript/JavaScript)
 • General Solana blockchain best practices (PDAs, CPIs, rent exemption, security, performance, etc.)

**When providing answers**:
1. **If you propose code changes**, you must:
   • Clearly **mention which lines** changed (e.g. “Line 42 changed from ... to ...”).
   • Show the **modified code** in a code block, marking the exact lines or sections you altered.
   • Provide a **thorough explanation** for each change (why it was necessary or beneficial, what it adds, etc.).
2. For **code analysis**:
   • Identify issues and potential improvements.
   • Provide full updated code if needed, referencing official Solana or framework docs.
3. For **general questions**:
   • Give concise yet thorough explanations,
   • Provide relevant examples and references (docs, official resources).
4. Emphasize correctness, security, performance, and clarity in all solutions.
"

/-- Rust branch appendix of the system prompt. -/
def systemPromptRust : Str := strOf "

SOLANA RUST PROGRAM GUIDELINES:
• Validate accounts, seeds (PDAs), and CPIs carefully.
• Check rent exemption requirements and watch the ~200k compute budget.
• Provide robust error handling (custom errors or standard program errors).
• Ensure safe cross-program invocations if used (Anchor or Native).
"

/-- Python branch appendix of the system prompt. -/
def systemPromptPython : Str := strOf "

SEAHORSE (PYTHON) GUIDELINES:
• Carefully manage PDAs and ephemeral accounts in Python.
• Provide strong error handling and security checks.
• Respect Solana's compute budget and rent rules, even in Python.
• Use Seahorse macros in a safe and consistent manner.
"

/-- Default branch appendix of the system prompt. -/
def systemPromptDefault : Str := strOf "

CLIENT-SIDE / UNKNOWN LANGUAGE GUIDELINES:
• Handle transaction creation, signing, and confirmation robustly.
• Manage account data (serialization, deserialization) carefully.
• Use best practices for web3 calls, error handling, and wallet states.
• If relevant, mention how to handle PDAs and CPIs from the client side.
"

/-- `OpenAIService.getSystemPrompt`: pick the guidance branch from the
lower-cased language name and return the trimmed concatenation. -/
def getSystemPrompt (currentLang : Str) : Str :=
  let lowerLang := toLowerStr currentLang
  let isRustFile := strContains lowerLang (strOf "rust")
  let isPythonFile := strContains lowerLang (strOf "python")
  let base := jsTrim systemPromptBase
  let withBranch :=
    if isRustFile then base ++ systemPromptRust
    else if isPythonFile then base ++ systemPromptPython
    else base ++ systemPromptDefault
  jsTrim withBranch

/-- The final user message of `analyzeCode`: with code context it is the
trimmed template embedding the language tag, the literal code and the
request; otherwise it is the bare request. -/
def currentUserMessage (prompt currentCode currentLang : Str)
    (useCodeContext : Bool) : Str :=
  if useCodeContext then
    jsTrim (strOf "\nThe current file is in " ++ currentLang ++
      strOf ".\n\nCurrent code:\n```" ++ currentLang ++ strOf "\n" ++
      currentCode ++ strOf "\n```\n\nUser request: " ++ prompt ++
      strOf "\n\nPlease analyze the code and respond with best practices, specifying changes if needed.\n")
  else strOf "User request: " ++ prompt

/-- The outbound message list of `analyzeCode`'s `requestBody.messages`,
with the history window size as a parameter (the source fixes it to
`MAX_HISTORY_PAIRS`): a leading system message, the expanded history
window, and the trailing current user message. -/
def analyzeCodeMessagesW (windowSize : Nat) (prompt currentCode : Str)
    (useCodeContext : Bool) (previousMessages : List ChatHistory)
    (currentLang : Str) : List ChatMessage :=
  ⟨Role.system, getSystemPrompt currentLang⟩ ::
    (historyMessages windowSize previousMessages ++
      [⟨Role.user, currentUserMessage prompt currentCode currentLang useCodeContext⟩])

/-- The outbound message list exactly as the source builds it
(window size `MAX_HISTORY_PAIRS`). -/
def analyzeCodeMessages (prompt currentCode : Str) (useCodeContext : Bool)
    (previousMessages : List ChatHistory) (currentLang : Str) : List ChatMessage :=
  analyzeCodeMessagesW MAX_HISTORY_PAIRS prompt currentCode useCodeContext
    previousMessages currentLang

/-! ## Streaming Transport Client (`analyzeCode` stream-reading loop) -/

/-- The event-data marker `"data: "`. -/
def dataMarker : Str := strOf "data: "

/-- The termination sentinel `"[DONE]"`. -/
def doneSentinel : Str := strOf "[DONE]"

/-- State of the stream-reading loop of `analyzeCode`: the `done` flag, the
cumulative `fullResponse` accumulator, and the list of values passed to the
`onProgress` callback so far (in call order). -/
structure StreamState where
  done : Bool
  fullResponse : Str
  calls : List Str
deriving DecidableEq

/-- Loop state at entry: not done, empty accumulator, no callback calls. -/
def initStream : StreamState := ⟨false, [], []⟩

/-- Processing of one non-blank line by the loop body.  `jsonDelta` models
`JSON.parse` composed with the `parsed.choices?.[0]?.delta?.content`
access: `none` is a thrown parse error (caught, logged, line skipped),
`some none` is a parsed document without the content fragment (ignored),
`some (some d)` is an extracted fragment `d` (appended only when truthy,
i.e. non-empty, and then reported to `onProgress` as the full
accumulator).  A line after the sentinel is never reached (`break` plus
the `while (!done)` guard), modelled by the leading `done` test. -/
def processLine (jsonDelta : Str → Option (Option Str)) (st : StreamState)
    (line : Str) : StreamState :=
  if st.done then st
  else if jsStartsWith line dataMarker then
    let dataStr := jsTrim (line.drop dataMarker.length)
    if dataStr = doneSentinel then { st with done := true }
    else
      match jsonDelta dataStr with
      | none => st
      | some none => st
      | some (some d) =>
        if d = [] then st
        else { st with fullResponse := st.fullResponse ++ d,
                       calls := st.calls ++ [st.fullResponse ++ d] }
  else st

/-- Lines of one decoded chunk:
`chunk.split("\n").filter((line) => line.trim() !== "")`. -/
def chunkLines (chunk : Str) : List Str :=
  (jsSplit (strOf "\n") chunk).filter fun l => jsTrim l ≠ []

/-- Processing of one decoded chunk: the inner `for` loop over its lines. -/
def processChunk (jsonDelta : Str → Option (Option Str)) (st : StreamState)
    (chunk : Str) : StreamState :=
  (chunkLines chunk).foldl (processLine jsonDelta) st

/-- The `while (!done)` loop over the decoded chunks of the response body. -/
def runStream (jsonDelta : Str → Option (Option Str)) (chunks : List Str) :
    StreamState :=
  chunks.foldl (fun st chunk => if st.done then st else processChunk jsonDelta st chunk)
    initStream

/-- The loop run directly over a list of (already split, non-blank) lines. -/
def runLines (jsonDelta : Str → Option (Option Str)) (lines : List Str) :
    StreamState :=
  lines.foldl (processLine jsonDelta) initStream

/-- The string `analyzeCode` resolves with: the final accumulator. -/
def sendResult (jsonDelta : Str → Option (Option Str)) (chunks : List Str) : Str :=
  (runStream jsonDelta chunks).fullResponse

/-- Specification-side view of a line list: the non-empty content fragments
successfully extracted before the sentinel, in stream order. -/
def fragmentsGo (jsonDelta : Str → Option (Option Str)) : List Str → List Str
  | [] => []
  | line :: rest =>
    if jsStartsWith line dataMarker then
      let dataStr := jsTrim (line.drop dataMarker.length)
      if dataStr = doneSentinel then []
      else
        match jsonDelta dataStr with
        | some (some d) =>
          if d = [] then fragmentsGo jsonDelta rest
          else d :: fragmentsGo jsonDelta rest
        | _ => fragmentsGo jsonDelta rest
    else fragmentsGo jsonDelta rest

/-- Cumulative concatenations of a fragment list on top of `acc`: the
successive accumulator values a caller observes. -/
def cumAppend (acc : Str) : List Str → List Str
  | [] => []
  | d :: ds => (acc ++ d) :: cumAppend (acc ++ d) ds

/-! ## Incremental UTF-8 decoder

Modelled from the spec: the stateful incremental decoder is the platform's
`TextDecoder("utf-8")` used with `{ stream: true }` (`openai.ts` lines
148–156); the decoder itself is not part of the repository, so it is
modelled after the spec's description ("a stateful incremental decoder
[that] must retain a streaming decode state across calls"), following the
WHATWG UTF-8 decode algorithm.  Decoded text is represented as the list of
decoded code points. -/

/-- State of the incremental UTF-8 decoder between chunks: the partial
code point, how many continuation bytes are needed and seen, and the
bounds for the next continuation byte. -/
structure Utf8State where
  codePoint : Nat
  bytesNeeded : Nat
  bytesSeen : Nat
  lowerBoundary : Nat
  upperBoundary : Nat
deriving DecidableEq

/-- Decoder state with no pending partial character. -/
def utf8Init : Utf8State := ⟨0, 0, 0, 0x80, 0xBF⟩

/-- Decode one byte arriving with no pending partial character: ASCII is
emitted directly, lead bytes open a multi-byte sequence with the WHATWG
boundaries, anything else is an error emitting U+FFFD. -/
def decodeStartByte (b : Nat) : Utf8State × List Nat :=
  if b ≤ 0x7F then (utf8Init, [b])
  else if 0xC2 ≤ b ∧ b ≤ 0xDF then
    ({ codePoint := b % 32, bytesNeeded := 1, bytesSeen := 0,
       lowerBoundary := 0x80, upperBoundary := 0xBF }, [])
  else if 0xE0 ≤ b ∧ b ≤ 0xEF then
    ({ codePoint := b % 16, bytesNeeded := 2, bytesSeen := 0,
       lowerBoundary := if b = 0xE0 then 0xA0 else 0x80,
       upperBoundary := if b = 0xED then 0x9F else 0xBF }, [])
  else if 0xF0 ≤ b ∧ b ≤ 0xF4 then
    ({ codePoint := b % 8, bytesNeeded := 3, bytesSeen := 0,
       lowerBoundary := if b = 0xF0 then 0x90 else 0x80,
       upperBoundary := if b = 0xF4 then 0x8F else 0xBF }, [])
  else (utf8Init, [0xFFFD])

/-- Decode one byte: continuation bytes in range extend the pending code
point (emitting it when complete); a continuation byte out of range emits
U+FFFD and reprocesses the byte as a fresh start byte (the WHATWG
"restore the byte" step). -/
def decodeByte (s : Utf8State) (b : Nat) : Utf8State × List Nat :=
  if s.bytesNeeded = 0 then decodeStartByte b
  else if s.lowerBoundary ≤ b ∧ b ≤ s.upperBoundary then
    let cp := s.codePoint * 64 + b % 64
    let seen := s.bytesSeen + 1
    if seen = s.bytesNeeded then (utf8Init, [cp])
    else ({ codePoint := cp, bytesNeeded := s.bytesNeeded, bytesSeen := seen,
            lowerBoundary := 0x80, upperBoundary := 0xBF }, [])
  else
    let r := decodeStartByte b
    (r.1, 0xFFFD :: r.2)

/-- Decode one chunk of bytes from a given decoder state, returning the
state retained for the next chunk and the code points emitted
(`decoder.decode(value, { stream: true })`). -/
def decodeChunk (s : Utf8State) : List Nat → Utf8State × List Nat
  | [] => (s, [])
  | b :: rest =>
    let r1 := decodeByte s b
    let r2 := decodeChunk r1.1 rest
    (r2.1, r1.2 ++ r2.2)

/-- Decode a list of chunks, threading the decoder state across calls, and
concatenate the emitted text (the chunk-by-chunk decode of the loop). -/
def decodeChunks (s : Utf8State) : List (List Nat) → Utf8State × List Nat
  | [] => (s, [])
  | c :: cs =>
    let r1 := decodeChunk s c
    let r2 := decodeChunks r1.1 cs
    (r2.1, r1.2 ++ r2.2)

/-! ## Response Segmenter (`ChatSideBar.tsx` `formatMessage`) -/

/-- The triple-backtick fence delimiter. -/
def fenceDelim : Str := strOf "```"

/-- The line break used to separate the language tag from the code body. -/
def nlStr : Str := strOf "\n"

/-- One rendered segment of a response: prose text, or a code block with
its language tag and trimmed body. -/
inductive Segment where
  | text (value : Str)
  | code (language : Str) (value : Str)
deriving DecidableEq

/-- Language tag of a fence part:
`const [language, ...codeParts] = part.split("\n")`. -/
def codeLangOf (part : Str) : Str := (jsSplit nlStr part).headD []

/-- The untrimmed remainder of a fence part after its first line:
`codeParts.join("\n")`. -/
def codeRest (part : Str) : Str := joinSep nlStr (jsSplit nlStr part).tail

/-- The code body of a fence part: `codeParts.join("\n").trim()`. -/
def codeBodyOf (part : Str) : Str := jsTrim (codeRest part)

/-- `formatMessage`: split the content on the fence; parts at even split
positions render as prose, parts at odd positions as code blocks with the
first line as language tag and the trimmed remainder as body. -/
def formatSegments (content : Str) : List Segment :=
  (jsSplit fenceDelim content).enum.map fun p =>
    if p.1 % 2 = 0 then Segment.text p.2
    else Segment.code (codeLangOf p.2) (codeBodyOf p.2)

/-- Render one segment back to text: prose verbatim; code as language tag,
line break, body. -/
def renderSegment : Segment → Str
  | Segment.text v => v
  | Segment.code lang v => lang ++ nlStr ++ v

/-- Re-join segments with the fence delimiter. -/
def joinSegments (segs : List Segment) : Str :=
  joinSep fenceDelim (segs.map renderSegment)

/-- Well-formedness of fenced input for the re-join round trip: every
fence part at an odd split position contains a line break (so the language
tag line is really a line) and its remainder after the first line is
unchanged by trimming. -/
def wellFormedFenced (t : Str) : Bool :=
  (jsSplit fenceDelim t).enum.all fun p =>
    p.1 % 2 = 0 ||
      (!(jsSplit nlStr p.2).tail.isEmpty && (jsTrim (codeRest p.2) == codeRest p.2))

/-! ## Session State Manager (`ChatSideBar.tsx` `handleSubmit`) -/

/-- The in-memory session state owned by the sidebar: the conversation
`history`, the set of identities currently marked loading (`loadingMap`
keys), and the identity counter (`nextMessageIndex.current`). -/
structure SessionState where
  history : List ChatHistory
  loadingMap : List Nat
  nextMessageIndex : Nat
deriving DecidableEq

/-- Atomic state mutations performed by `handleSubmit` and the streaming
callback.  `submitStart` is the synchronous prefix of `handleSubmit`
(reserve the next identity, append the placeholder entry, mark the
identity loading); `delta i p t` is a streaming update
(`newHistory[currentIndex] = { prompt, response }`, an in-bounds
positional assignment modelled by `List.set`); `clearLoading i` is the
unconditional `delete newMap[currentIndex]` after the stream ends or
fails. -/
inductive Ev where
  | submitStart (prompt : Str)
  | delta (i : Nat) (prompt : Str) (text : Str)
  | clearLoading (i : Nat)
deriving DecidableEq

/-- One step of the session state under an event. -/
def stepEv (s : SessionState) : Ev → SessionState
  | Ev.submitStart p =>
    { s with history := s.history ++ [⟨p, []⟩],
             loadingMap := s.loadingMap ++ [s.nextMessageIndex],
             nextMessageIndex := s.nextMessageIndex + 1 }
  | Ev.delta i p t => { s with history := s.history.set i ⟨p, t⟩ }
  | Ev.clearLoading i =>
    { s with loadingMap := s.loadingMap.filter fun j => j ≠ i }

/-- Run a list of events from a state. -/
def runEvs (s : SessionState) (evs : List Ev) : SessionState := evs.foldl stepEv s

/-- The text of the last delta for identity `i` in an event list, starting
from a default (the response already in place). -/
def lastDeltaFrom (i : Nat) (dflt : Str) (evs : List Ev) : Str :=
  evs.foldl (fun acc e =>
    match e with
    | Ev.delta j _ t => if j = i then t else acc
    | _ => acc) dflt

/-! ## Concrete data for the witnesses -/

/-- A six-entry prior history (the spec's "6 prior pairs" example). -/
def historySix : List ChatHistory :=
  [⟨strOf "p1", strOf "r1"⟩, ⟨strOf "p2", strOf "r2"⟩, ⟨strOf "p3", strOf "r3"⟩,
   ⟨strOf "p4", strOf "r4"⟩, ⟨strOf "p5", strOf "r5"⟩, ⟨strOf "p6", strOf "r6"⟩]

/-- A concrete payload parser for the witnesses: `"A"` and `"B"` carry the
fragments of the spec's streaming example, everything else fails to
parse. -/
def jdExample : Str → Option (Option Str) := fun s =>
  if s = strOf "A" then some (some (strOf "Hel"))
  else if s = strOf "B" then some (some (strOf "lo"))
  else none

/-- A concrete chunk sequence terminated by the sentinel. -/
def chunksExample : List Str :=
  [strOf "data: A\n", strOf "data: B\ndata: [DONE]\n"]

/-- Initial session state for the concurrency witness: empty history,
nothing loading, identity counter 0. -/
def sessionStart : SessionState := ⟨[], [], 0⟩

/-- Interleaved streaming deltas of two concurrent submissions. -/
def midExample : List Ev :=
  [Ev.delta 0 (strOf "a") (strOf "x"), Ev.delta 1 (strOf "b") (strOf "y"),
   Ev.delta 0 (strOf "a") (strOf "xz")]

/-- The two loading-flag clears at the end of both submissions. -/
def endsExample : List Ev := [Ev.clearLoading 0, Ev.clearLoading 1]

end SolPg

namespace SolPg

/-! ## Helper lemmas -/

theorem flatMap_pair_length (l : List ChatHistory) :
    (l.flatMap fun e =>
      [ChatMessage.mk Role.user e.prompt, ChatMessage.mk Role.assistant e.response]).length
      = 2 * l.length := by
  induction l with
  | nil => rfl
  | cons e rest ih => simp [List.flatMap_cons, ih]; omega

theorem sliceLast_eq_reverseTake (l : List ChatHistory) (n : Nat) (h : n ≤ l.length) :
    sliceLast l n = (l.reverse.take n).reverse := by
  have hd : (l.drop (l.length - n)).reverse = l.reverse.take (l.length - (l.length - n)) :=
    List.reverse_drop
  have hn : l.length - (l.length - n) = n := Nat.sub_sub_self h
  rw [hn] at hd
  calc sliceLast l n = (l.drop (l.length - n)).reverse.reverse := by
        rw [List.reverse_reverse]; rfl
    _ = (l.reverse.take n).reverse := by rw [hd]

theorem getStorageKey_inj (f g : Str) (h : getStorageKey f = getStorageKey g) : f = g :=
  List.append_cancel_left h

/-! ## C9: storage round trip and key isolation -/

/-- C9: for every context identifier `f` and serializable history `h`,
loading right after saving under `f` returns `h`, and saving under `f`
leaves the history stored under any other identifier `g` unchanged (the
load operation is modelled as pure, so it trivially changes nothing).
The serializer/parser pair models `JSON.stringify`/`JSON.parse`;
"JSON-serializable" is the hypothesis that parsing the serialized text
gives back `h` and that the serialized text is non-empty (every
`JSON.stringify` of an array is). -/
theorem storage_roundtrip_and_isolation
    (stringify : List ChatHistory → Str) (parseJson : Str → Option (List ChatHistory))
    (ls : LocalStorage) (f g : Str) (h : List ChatHistory)
    (hro : parseJson (stringify h) = some h)
    (hne : stringify h ≠ [])
    (hfg : f ≠ g) :
    loadHistory parseJson (saveHistory stringify ls f h) f = h
    ∧ loadHistory parseJson (saveHistory stringify ls f h) g = loadHistory parseJson ls g := by
  constructor
  · simp only [loadHistory, saveHistory, eq_self_iff_true, if_true, if_neg hne, hro,
      Option.getD_some]
  · have hkey : getStorageKey g ≠ getStorageKey f := by
      intro hk
      exact hfg (getStorageKey_inj g f hk).symm
    simp only [loadHistory, saveHistory, if_neg hkey]

/-- Witness for C9 at a concrete store, codec and pair of file paths. -/
theorem storage_roundtrip_and_isolation_witness :
    loadHistory (fun _ => some []) (saveHistory (fun _ => strOf "E") (fun _ => none) (strOf "a") []) (strOf "a") = []
    ∧ loadHistory (fun _ => some []) (saveHistory (fun _ => strOf "E") (fun _ => none) (strOf "a") []) (strOf "b")
        = loadHistory (fun _ => some []) (fun _ => none) (strOf "b") :=
  storage_roundtrip_and_isolation (fun _ => strOf "E") (fun _ => some [])
    (fun _ => none) (strOf "a") (strOf "b") [] rfl (by decide) (by decide)

/-! ## C8: the prompt builder is a pure, deterministic function -/

/-- C8: the outbound message list is a total Lean function of the request,
the current code, the code-context flag, the history, and the current file
language (read once from the editor collaborator); two invocations with
identical inputs produce identical message lists.  Purity (no network or
storage access) is captured by the embedding itself: the construction of
`requestBody.messages` (source lines 95–129) is a pure expression. -/
theorem promptBuilder_deterministic (p₁ p₂ c₁ c₂ : Str) (u₁ u₂ : Bool)
    (h₁ h₂ : List ChatHistory) (l₁ l₂ : Str)
    (hp : p₁ = p₂) (hc : c₁ = c₂) (hu : u₁ = u₂) (hh : h₁ = h₂) (hl : l₁ = l₂) :
    analyzeCodeMessages p₁ c₁ u₁ h₁ l₁ = analyzeCodeMessages p₂ c₂ u₂ h₂ l₂ := by
  subst hp; subst hc; subst hu; subst hh; subst hl; rfl

/-- Witness for C8 at concrete inputs. -/
theorem promptBuilder_deterministic_witness :
    analyzeCodeMessages (strOf "q") (strOf "c") true historySix (strOf "Rust")
      = analyzeCodeMessages (strOf "q") (strOf "c") true historySix (strOf "Rust") :=
  promptBuilder_deterministic (strOf "q") (strOf "q") (strOf "c") (strOf "c")
    true true historySix historySix (strOf "Rust") (strOf "Rust") rfl rfl rfl rfl rfl

/-! ## C2: the history window of the prompt builder -/

/-- C2: for every window size `N` and history with at least `N` entries,
the outbound message list is the system message, then exactly the last `N`
history entries in original order, each expanded into a user message (the
stored prompt) followed by an assistant message (the stored response), then
the current user message; its total length is `2 * N + 2`.  The source
fixes the window size to the constant `MAX_HISTORY_PAIRS = 4`;
`analyzeCodeMessagesW` exposes it as a parameter. -/
theorem promptBuilder_window (windowSize : Nat) (prompt currentCode : Str)
    (useCodeContext : Bool) (history : List ChatHistory) (currentLang : Str)
    (hlen : windowSize ≤ history.length) :
    analyzeCodeMessagesW windowSize prompt currentCode useCodeContext history currentLang
      = ⟨Role.system, getSystemPrompt currentLang⟩ ::
          (((history.reverse.take windowSize).reverse.flatMap fun e =>
              [⟨Role.user, e.prompt⟩, ⟨Role.assistant, e.response⟩]) ++
            [⟨Role.user, currentUserMessage prompt currentCode currentLang useCodeContext⟩])
    ∧ (history.reverse.take windowSize).reverse.length = windowSize
    ∧ (analyzeCodeMessagesW windowSize prompt currentCode useCodeContext history
        currentLang).length = 2 * windowSize + 2 := by
  have hslice : sliceLast history windowSize = (history.reverse.take windowSize).reverse :=
    sliceLast_eq_reverseTake history windowSize hlen
  have hlenslice : (history.reverse.take windowSize).reverse.length = windowSize := by
    have hmin : (history.reverse.take windowSize).reverse.length
        = min windowSize history.length := by simp
    omega
  have heq : analyzeCodeMessagesW windowSize prompt currentCode useCodeContext history
      currentLang
      = ⟨Role.system, getSystemPrompt currentLang⟩ ::
          (((history.reverse.take windowSize).reverse.flatMap fun e =>
              [⟨Role.user, e.prompt⟩, ⟨Role.assistant, e.response⟩]) ++
            [⟨Role.user, currentUserMessage prompt currentCode currentLang useCodeContext⟩]) := by
    simp only [analyzeCodeMessagesW, historyMessages, hslice]
  refine ⟨heq, hlenslice, ?_⟩
  rw [heq, List.length_cons, List.length_append, flatMap_pair_length, hlenslice]
  rfl

/-! ## C4: the incremental UTF-8 decoder is split-invariant -/

theorem decodeChunk_append (a b : List Nat) (s : Utf8State) :
    decodeChunk s (a ++ b)
      = ((decodeChunk (decodeChunk s a).1 b).1,
         (decodeChunk s a).2 ++ (decodeChunk (decodeChunk s a).1 b).2) := by
  induction a generalizing s with
  | nil => simp [decodeChunk]
  | cons x xs ih => simp [decodeChunk, ih, List.append_assoc]

theorem decodeChunks_eq_flatten (chunks : List (List Nat)) (s : Utf8State) :
    decodeChunks s chunks = decodeChunk s chunks.flatten := by
  induction chunks generalizing s with
  | nil => simp [decodeChunks, decodeChunk]
  | cons c cs ih => simp [decodeChunks, decodeChunk_append, ih]

/-- C4: decoding a byte stream chunk-by-chunk with the stateful incremental
decoder (state threaded across `decode(…, { stream: true })` calls) yields
the same final text as decoding the concatenated bytes in one piece — for
every chunking, hence for every split point `i` — and in particular for
splits inside a multi-byte UTF-8 character (the last two conjuncts decode
U+00E9 "é" = C3 A9 and U+1F600 = F0 9F 98 80, each split mid-character). -/
theorem utf8_incremental_decode (chunks : List (List Nat)) (bs : List Nat) (i : Nat) :
    (decodeChunks utf8Init chunks).2 = (decodeChunk utf8Init chunks.flatten).2
    ∧ (decodeChunk utf8Init (bs.take i)).2 ++
        (decodeChunk (decodeChunk utf8Init (bs.take i)).1 (bs.drop i)).2
        = (decodeChunk utf8Init bs).2
    ∧ decodeChunks utf8Init [[0xC3], [0xA9]] = (utf8Init, [0xE9])
    ∧ decodeChunks utf8Init [[0xF0, 0x9F], [0x98, 0x80]] = (utf8Init, [0x1F600]) := by
  refine ⟨by rw [decodeChunks_eq_flatten], ?_, by decide, by decide⟩
  have h := decodeChunk_append (bs.take i) (bs.drop i) utf8Init
  rw [List.take_append_drop] at h
  rw [h]

/-! ## C6: the response segmenter -/

/-- C6: segmenting splits the content on the triple-backtick fence; the
segment list has one segment per fence part, parts at even split positions
render as prose with the part verbatim, parts at odd positions as code
whose language tag is the part's text up to the first line break
(`codeLangOf`) and whose body is the remainder trimmed of surrounding
whitespace (`codeBodyOf`).  The third conjunct is the spec's example
(prose `"fix:\n"`, language `"rust"`, body `"fn a(){}"`, plus the empty
trailing prose part of the split); the fourth shows an unterminated
trailing fence yielding a final code segment containing the text after the
last fence. -/
theorem responseSegmenter_spec (content : Str) :
    (formatSegments content).length = (jsSplit fenceDelim content).length
    ∧ (∀ i : Nat, (formatSegments content)[i]? =
        ((jsSplit fenceDelim content)[i]?).map fun part =>
          if i % 2 = 0 then Segment.text part
          else Segment.code (codeLangOf part) (codeBodyOf part))
    ∧ formatSegments (strOf "fix:\n```rust\nfn a()\x7b\x7d\n```")
        = [Segment.text (strOf "fix:\n"),
           Segment.code (strOf "rust") (strOf "fn a()\x7b\x7d"),
           Segment.text []]
    ∧ formatSegments (strOf "pre```rs\nbody")
        = [Segment.text (strOf "pre"), Segment.code (strOf "rs") (strOf "body")] := by
  refine ⟨by simp [formatSegments], ?_, by decide, by decide⟩
  intro i
  simp only [formatSegments, List.getElem?_map, List.getElem?_enum]
  cases (jsSplit fenceDelim content)[i]? with
  | none => rfl
  | some part => rfl

/-! ## Streaming-loop lemmas -/

theorem processLine_done (jd : Str → Option (Option Str)) (st : StreamState) (line : Str)
    (h : st.done = true) : processLine jd st line = st := by
  simp [processLine, h]

theorem foldl_processLine_of_done (jd : Str → Option (Option Str)) (lines : List Str)
    (st : StreamState) (h : st.done = true) :
    lines.foldl (processLine jd) st = st := by
  induction lines with
  | nil => rfl
  | cons l ls ih => rw [List.foldl_cons, processLine_done jd st l h]; exact ih

theorem runStream_eq_runLines (jd : Str → Option (Option Str)) (chunks : List Str) :
    runStream jd chunks = runLines jd (chunks.flatMap chunkLines) := by
  suffices h : ∀ st : StreamState,
      chunks.foldl (fun st chunk => if st.done then st else processChunk jd st chunk) st
        = (chunks.flatMap chunkLines).foldl (processLine jd) st from h initStream
  induction chunks with
  | nil => intro st; rfl
  | cons c cs ih =>
    intro st
    rw [List.foldl_cons, List.flatMap_cons, List.foldl_append]
    by_cases hd : st.done
    · rw [if_pos hd, foldl_processLine_of_done jd (chunkLines c) st hd]
      exact ih st
    · rw [if_neg hd]
      exact ih (processChunk jd st c)

theorem foldl_processLine_spec (jd : Str → Option (Option Str)) (lines : List Str)
    (st : StreamState) (h : st.done = false) :
    (lines.foldl (processLine jd) st).fullResponse
        = st.fullResponse ++ (fragmentsGo jd lines).flatten
    ∧ (lines.foldl (processLine jd) st).calls
        = st.calls ++ cumAppend st.fullResponse (fragmentsGo jd lines) := by
  induction lines generalizing st with
  | nil => simp [fragmentsGo, cumAppend]
  | cons line rest ih =>
    rw [List.foldl_cons]
    by_cases hstart : jsStartsWith line dataMarker = true
    case neg =>
      have hpl : processLine jd st line = st := by simp [processLine, h, hstart]
      have hfr : fragmentsGo jd (line :: rest) = fragmentsGo jd rest := by
        simp [fragmentsGo, hstart]
      rw [hpl, hfr]; exact ih st h
    case pos =>
      by_cases hdone : jsTrim (line.drop dataMarker.length) = doneSentinel
      case pos =>
        have hpl : processLine jd st line = { st with done := true } := by
          simp [processLine, h, hstart, hdone]
        have hfr : fragmentsGo jd (line :: rest) = [] := by
          simp [fragmentsGo, hstart, hdone]
        rw [hpl, hfr, foldl_processLine_of_done jd rest _ rfl]
        simp [cumAppend]
      case neg =>
        cases hjd : jd (jsTrim (line.drop dataMarker.length)) with
        | none =>
          have hpl : processLine jd st line = st := by
            simp [processLine, h, hstart, hdone, hjd]
          have hfr : fragmentsGo jd (line :: rest) = fragmentsGo jd rest := by
            simp [fragmentsGo, hstart, hdone, hjd]
          rw [hpl, hfr]; exact ih st h
        | some od =>
          cases od with
          | none =>
            have hpl : processLine jd st line = st := by
              simp [processLine, h, hstart, hdone, hjd]
            have hfr : fragmentsGo jd (line :: rest) = fragmentsGo jd rest := by
              simp [fragmentsGo, hstart, hdone, hjd]
            rw [hpl, hfr]; exact ih st h
          | some d =>
            by_cases hde : d = []
            case pos =>
              have hpl : processLine jd st line = st := by
                simp [processLine, h, hstart, hdone, hjd, hde]
              have hfr : fragmentsGo jd (line :: rest) = fragmentsGo jd rest := by
                simp [fragmentsGo, hstart, hdone, hjd, hde]
              rw [hpl, hfr]; exact ih st h
            case neg =>
              have hpl : processLine jd st line
                  = { st with fullResponse := st.fullResponse ++ d,
                              calls := st.calls ++ [st.fullResponse ++ d] } := by
                simp [processLine, h, hstart, hdone, hjd, hde]
              have hfr : fragmentsGo jd (line :: rest) = d :: fragmentsGo jd rest := by
                simp [fragmentsGo, hstart, hdone, hjd, hde]
              rw [hpl, hfr]
              obtain ⟨ih1, ih2⟩ :=
                ih { st with fullResponse := st.fullResponse ++ d,
                             calls := st.calls ++ [st.fullResponse ++ d] } h
              constructor
              · rw [ih1]; simp [List.append_assoc]
              · rw [ih2]
                show (st.calls ++ [st.fullResponse ++ d]) ++
                    cumAppend (st.fullResponse ++ d) (fragmentsGo jd rest)
                  = st.calls ++ (st.fullResponse ++ d) ::
                      cumAppend (st.fullResponse ++ d) (fragmentsGo jd rest)
                simp

theorem runLines_spec (jd : Str → Option (Option Str)) (lines : List Str) :
    (runLines jd lines).fullResponse = (fragmentsGo jd lines).flatten
    ∧ (runLines jd lines).calls = cumAppend [] (fragmentsGo jd lines) := by
  have h := foldl_processLine_spec jd lines initStream rfl
  simpa [runLines, initStream] using h

theorem cumAppend_getLast? (acc : Str) (frs : List Str) (h : frs ≠ []) :
    (cumAppend acc frs).getLast? = some (acc ++ frs.flatten) := by
  induction frs generalizing acc with
  | nil => exact absurd rfl h
  | cons d ds ih =>
    cases ds with
    | nil => simp [cumAppend]
    | cons d2 ds2 =>
      rw [show cumAppend acc (d :: d2 :: ds2)
          = (acc ++ d) :: cumAppend (acc ++ d) (d2 :: ds2) from rfl]
      have htail : cumAppend (acc ++ d) (d2 :: ds2)
          = ((acc ++ d) ++ d2) :: cumAppend ((acc ++ d) ++ d2) ds2 := rfl
      rw [htail, List.getLast?_cons_cons, ← htail, ih (acc ++ d) (by simp)]
      simp

theorem fragmentsGo_mem_ne_nil (jd : Str → Option (Option Str)) (lines : List Str) :
    ∀ d ∈ fragmentsGo jd lines, d ≠ [] := by
  induction lines with
  | nil => intro d hd; simp [fragmentsGo] at hd
  | cons line rest ih =>
    intro d hd
    by_cases hstart : jsStartsWith line dataMarker = true
    case neg => rw [show fragmentsGo jd (line :: rest) = fragmentsGo jd rest by
        simp [fragmentsGo, hstart]] at hd; exact ih d hd
    case pos =>
      by_cases hdone : jsTrim (line.drop dataMarker.length) = doneSentinel
      case pos => rw [show fragmentsGo jd (line :: rest) = [] by
          simp [fragmentsGo, hstart, hdone]] at hd; simp at hd
      case neg =>
        cases hjd : jd (jsTrim (line.drop dataMarker.length)) with
        | none => rw [show fragmentsGo jd (line :: rest) = fragmentsGo jd rest by
            simp [fragmentsGo, hstart, hdone, hjd]] at hd; exact ih d hd
        | some od =>
          cases od with
          | none => rw [show fragmentsGo jd (line :: rest) = fragmentsGo jd rest by
              simp [fragmentsGo, hstart, hdone, hjd]] at hd; exact ih d hd
          | some d0 =>
            by_cases hde : d0 = []
            case pos => rw [show fragmentsGo jd (line :: rest) = fragmentsGo jd rest by
                simp [fragmentsGo, hstart, hdone, hjd, hde]] at hd; exact ih d hd
            case neg =>
              rw [show fragmentsGo jd (line :: rest) = d0 :: fragmentsGo jd rest by
                simp [fragmentsGo, hstart, hdone, hjd, hde]] at hd
              rcases List.mem_cons.mp hd with hd | hd
              · rw [hd]; exact hde
              · exact ih d hd

theorem cumAppend_chain (acc : Str) (frs : List Str) (h : ∀ d ∈ frs, d ≠ []) :
    List.Chain' (fun a b : Str => ∃ s : Str, s ≠ [] ∧ b = a ++ s) (cumAppend acc frs) := by
  induction frs generalizing acc with
  | nil => exact List.chain'_nil
  | cons d ds ih =>
    rw [show cumAppend acc (d :: ds) = (acc ++ d) :: cumAppend (acc ++ d) ds from rfl]
    rw [List.chain'_cons']
    constructor
    · intro y hy
      cases ds with
      | nil => simp [cumAppend] at hy
      | cons d2 ds2 =>
        have hyv : acc ++ (d ++ d2) = y := by
          have hht : cumAppend (acc ++ d) (d2 :: ds2)
              = ((acc ++ d) ++ d2) :: cumAppend ((acc ++ d) ++ d2) ds2 := rfl
          rw [hht] at hy
          simpa using hy
        refine ⟨d2, h d2 (by simp), ?_⟩
        rw [← hyv, List.append_assoc]
    · exact ih (acc ++ d) fun x hx => h x (List.mem_cons_of_mem d hx)

/-! ## C3: final callback value equals the resolved value -/

/-- C3: for every chunk stream whose processing ends via the sentinel
token (`done = true` is set only by the sentinel line), the sequence of
values passed to `onProgress` is exactly the cumulative concatenations of
the extracted fragments in stream order (each call receives the full
accumulator so far, not the latest fragment), and — whenever the callback
was invoked at all — the final value passed to it equals the string the
send operation (`analyzeCode`) resolves with. -/
theorem streamingSend_final_callback (jd : Str → Option (Option Str)) (chunks : List Str)
    (_hterm : (runStream jd chunks).done = true) :
    (runStream jd chunks).calls
      = cumAppend [] (fragmentsGo jd (chunks.flatMap chunkLines))
    ∧ ((runStream jd chunks).calls ≠ [] →
        (runStream jd chunks).calls.getLast? = some (sendResult jd chunks)) := by
  have hrl := runStream_eq_runLines jd chunks
  obtain ⟨h1, h2⟩ := runLines_spec jd (chunks.flatMap chunkLines)
  refine ⟨by rw [hrl]; exact h2, ?_⟩
  intro hne
  rw [hrl] at hne ⊢
  rw [h2] at hne ⊢
  cases hfr : fragmentsGo jd (chunks.flatMap chunkLines) with
  | nil => rw [hfr] at hne; simp [cumAppend] at hne
  | cons d ds =>
    rw [cumAppend_getLast? [] (d :: ds) (by simp)]
    rw [show sendResult jd chunks = (runLines jd (chunks.flatMap chunkLines)).fullResponse by
      rw [sendResult, hrl]]
    rw [h1, hfr]
    simp

/-- Witness for C3 on the spec's example stream (`"Hel"`, `"lo"`,
sentinel). -/
theorem streamingSend_final_callback_witness :
    (runStream jdExample chunksExample).done = true
    ∧ (runStream jdExample chunksExample).calls
        = cumAppend [] (fragmentsGo jdExample (chunksExample.flatMap chunkLines)) :=
  ⟨by decide, (streamingSend_final_callback jdExample chunksExample (by decide)).1⟩

/-! ## C5: a malformed payload line is skipped without aborting -/

/-- C5: if one payload line of the stream fails to parse as JSON (the
parser throws; the `catch` logs and continues), the loop state it produces
is unchanged, so the whole run — and hence the resolved final string —
equals the run on the same stream with the malformed line removed.  The
run is a total function, so the parse failure never rejects the send
operation. -/
theorem malformedLine_skipped (jd : Str → Option (Option Str))
    (chunksA chunksB : List Str) (pre post : List Str) (bad : Str)
    (hA : chunksA.flatMap chunkLines = pre ++ bad :: post)
    (hB : chunksB.flatMap chunkLines = pre ++ post)
    (hdata : jsStartsWith bad dataMarker = true)
    (hnd : jsTrim (bad.drop dataMarker.length) ≠ doneSentinel)
    (hfail : jd (jsTrim (bad.drop dataMarker.length)) = none) :
    runStream jd chunksA = runStream jd chunksB
    ∧ sendResult jd chunksA = sendResult jd chunksB := by
  have key : ∀ st : StreamState, processLine jd st bad = st := by
    intro st
    by_cases hd : st.done
    · simp [processLine, hd]
    · simp [processLine, hd, hdata, hnd, hfail]
  have hmain : runStream jd chunksA = runStream jd chunksB := by
    rw [runStream_eq_runLines, runStream_eq_runLines, hA, hB]
    show (pre ++ bad :: post).foldl (processLine jd) initStream
      = (pre ++ post).foldl (processLine jd) initStream
    rw [List.foldl_append, List.foldl_append, List.foldl_cons, key]
  exact ⟨hmain, by rw [sendResult, sendResult, hmain]⟩

/-- Witness for C5: a stream with an unparsable line `"data: X"` inserted
before the spec's example stream. -/
theorem malformedLine_skipped_witness :
    runStream jdExample [strOf "data: X\n", strOf "data: A\ndata: B\ndata: [DONE]\n"]
      = runStream jdExample [strOf "data: A\ndata: B\ndata: [DONE]\n"]
    ∧ sendResult jdExample [strOf "data: X\n", strOf "data: A\ndata: B\ndata: [DONE]\n"]
      = sendResult jdExample [strOf "data: A\ndata: B\ndata: [DONE]\n"] :=
  malformedLine_skipped jdExample
    [strOf "data: X\n", strOf "data: A\ndata: B\ndata: [DONE]\n"]
    [strOf "data: A\ndata: B\ndata: [DONE]\n"]
    [] [strOf "data: A", strOf "data: B", strOf "data: [DONE]"] (strOf "data: X")
    (by decide) (by decide) (by decide) (by decide) (by decide)

/-! ## C10: callback values are strictly increasing in the prefix order -/

/-- C10: during one streaming send, every value passed to the progress
callback extends the previously passed value by a non-empty suffix — the
accumulator never shrinks and previously delivered characters are never
changed. -/
theorem streamingCalls_monotone (jd : Str → Option (Option Str)) (chunks : List Str) :
    List.Chain' (fun a b : Str => ∃ s : Str, s ≠ [] ∧ b = a ++ s)
      (runStream jd chunks).calls := by
  rw [runStream_eq_runLines, (runLines_spec jd (chunks.flatMap chunkLines)).2]
  exact cumAppend_chain [] (fragmentsGo jd (chunks.flatMap chunkLines))
    (fragmentsGo_mem_ne_nil jd (chunks.flatMap chunkLines))

/-! ## Split/join round-trip lemmas -/

theorem isPrefixOf_exists (l₁ l₂ : Str) (h : l₁.isPrefixOf l₂ = true) :
    ∃ t, l₁ ++ t = l₂ := by
  induction l₁ generalizing l₂ with
  | nil => exact ⟨l₂, rfl⟩
  | cons a as ih =>
    cases l₂ with
    | nil => simp [List.isPrefixOf] at h
    | cons b bs =>
      rw [List.isPrefixOf, Bool.and_eq_true] at h
      obtain ⟨hab, hrest⟩ := h
      obtain ⟨t, ht⟩ := ih bs hrest
      exact ⟨t, by rw [List.cons_append, ht, beq_iff_eq.mp hab]⟩

theorem jsSplitGo_ne_nil (sep : Str) (fuel : Nat) (acc s : Str) :
    jsSplitGo sep fuel acc s ≠ [] := by
  induction fuel generalizing acc s with
  | zero => cases s <;> simp [jsSplitGo]
  | succ n ih =>
    cases s with
    | nil => simp [jsSplitGo]
    | cons c rest =>
      simp only [jsSplitGo]
      split
      · simp
      · exact ih (c :: acc) rest

theorem jsSplit_ne_nil (sep s : Str) : jsSplit sep s ≠ [] :=
  jsSplitGo_ne_nil sep s.length [] s

theorem joinSep_cons (sep x : Str) (l : List Str) (h : l ≠ []) :
    joinSep sep (x :: l) = x ++ sep ++ joinSep sep l := by
  cases l with
  | nil => exact absurd rfl h
  | cons y ys => rfl

theorem joinSep_jsSplitGo (sep : Str) (hsep : sep ≠ []) (fuel : Nat) :
    ∀ acc s : Str, s.length ≤ fuel →
      joinSep sep (jsSplitGo sep fuel acc s) = acc.reverse ++ s := by
  induction fuel with
  | zero =>
    intro acc s hs
    have hs0 : s = [] := List.eq_nil_of_length_eq_zero (Nat.le_zero.mp hs)
    subst hs0
    simp [jsSplitGo, joinSep]
  | succ n ih =>
    intro acc s hs
    cases s with
    | nil => simp [jsSplitGo, joinSep]
    | cons c rest =>
      simp only [jsSplitGo]
      split
      case isTrue hp =>
        rw [Bool.and_eq_true] at hp
        obtain ⟨t, ht⟩ := isPrefixOf_exists sep (c :: rest) hp.1
        have hdrop : (c :: rest).drop sep.length = t := by
          rw [← ht]; exact List.drop_left sep t
        have hslen : 1 ≤ sep.length := by
          cases sep
          · exact absurd rfl hsep
          · simp
        have hlent : sep.length + t.length = rest.length + 1 := by
          have := congrArg List.length ht
          simpa using this
        have hfuel : ((c :: rest).drop sep.length).length ≤ n := by
          rw [hdrop]
          have hr : rest.length + 1 ≤ n + 1 := by simpa using hs
          omega
        rw [joinSep_cons sep _ _ (jsSplitGo_ne_nil sep n [] _)]
        rw [ih [] ((c :: rest).drop sep.length) hfuel, hdrop]
        rw [show ([] : Str).reverse ++ t = t from rfl]
        rw [List.append_assoc, ht]
      case isFalse hp =>
        have hrn : rest.length ≤ n := by simp at hs; omega
        rw [ih (c :: acc) rest hrn]
        simp

theorem joinSep_jsSplit (sep s : Str) (hsep : sep ≠ []) :
    joinSep sep (jsSplit sep s) = s := by
  have h := joinSep_jsSplitGo sep hsep s.length [] s le_rfl
  simpa using h

theorem renderSegments_enumFrom (parts : List Str) (off : Nat)
    (h : ∀ p ∈ parts.enumFrom off, p.1 % 2 = 1 →
      ((jsSplit nlStr p.2).tail ≠ [] ∧ jsTrim (codeRest p.2) = codeRest p.2)) :
    ((parts.enumFrom off).map fun p =>
        renderSegment (if p.1 % 2 = 0 then Segment.text p.2
          else Segment.code (codeLangOf p.2) (codeBodyOf p.2))) = parts := by
  induction parts generalizing off with
  | nil => rfl
  | cons part rest ih =>
    rw [show (part :: rest).enumFrom off = (off, part) :: rest.enumFrom (off + 1) from rfl]
    rw [List.map_cons]
    congr 1
    · by_cases hoff : off % 2 = 0
      · simp [hoff, renderSegment]
      · have h1 : off % 2 = 1 := (Nat.mod_two_eq_zero_or_one off).resolve_left hoff
        obtain ⟨htail, htrim⟩ := h (off, part) (List.mem_cons_self _ _) h1
        rw [if_neg hoff]
        show codeLangOf part ++ nlStr ++ codeBodyOf part = part
        rw [codeBodyOf, htrim]
        cases hsp : jsSplit nlStr part with
        | nil => exact absurd hsp (jsSplit_ne_nil nlStr part)
        | cons hd tl =>
          have hlang : codeLangOf part = hd := by rw [codeLangOf, hsp]; rfl
          have hrest : codeRest part = joinSep nlStr tl := by rw [codeRest, hsp]; rfl
          rw [hsp] at htail
          have htl : tl ≠ [] := htail
          have hjoin := joinSep_jsSplit nlStr part (by decide)
          rw [hsp, joinSep_cons nlStr hd tl htl] at hjoin
          rw [hlang, hrest]
          exact hjoin
    · exact ih (off + 1) fun p hp h1 => h p (List.mem_cons_of_mem _ hp) h1

/-! ## C7: re-joining the segments -/

/-- Counterexample for C7: on the well-formed fenced text
`"fix:\n```rust\nfn a(){}\n```"` (the spec's own canonical example of
fenced input, with the closing fence on its own line), re-joining the
segments does not reproduce the input: the segmenter trims the code body,
so the line break before the closing fence is lost and the re-join yields
`"fix:\n```rust\nfn a(){}```"`. -/
theorem segmenter_rejoin_counterexample :
    joinSegments (formatSegments (strOf "fix:\n```rust\nfn a()\x7b\x7d\n```"))
      ≠ strOf "fix:\n```rust\nfn a()\x7b\x7d\n```" := by decide

/-- C7 (amended): re-joining the segments with the fence delimiter
reproduces the input exactly for fenced input whose code parts are
trim-stable — every part at an odd fence-split position contains a line
break and the text after its first line is unchanged by trimming (no
whitespace padding between the body and the closing fence).  Equivalently,
this is the image of the re-join itself, so `join ∘ segment` is idempotent
on such text. -/
theorem segmenter_rejoin_wellFormed (t : Str) (h : wellFormedFenced t = true) :
    joinSegments (formatSegments t) = t := by
  have hh : ∀ p ∈ (jsSplit fenceDelim t).enumFrom 0, p.1 % 2 = 1 →
      ((jsSplit nlStr p.2).tail ≠ [] ∧ jsTrim (codeRest p.2) = codeRest p.2) := by
    intro p hp h1
    have hx := List.all_eq_true.mp h p hp
    rw [h1] at hx
    simp at hx
    exact hx
  have hr := renderSegments_enumFrom (jsSplit fenceDelim t) 0 hh
  rw [joinSegments, formatSegments, List.map_map]
  rw [show ((jsSplit fenceDelim t).enum) = (jsSplit fenceDelim t).enumFrom 0 from rfl]
  rw [show (renderSegment ∘ fun p : Nat × Str =>
      if p.1 % 2 = 0 then Segment.text p.2
      else Segment.code (codeLangOf p.2) (codeBodyOf p.2))
    = fun p : Nat × Str => renderSegment (if p.1 % 2 = 0 then Segment.text p.2
      else Segment.code (codeLangOf p.2) (codeBodyOf p.2)) from rfl]
  rw [hr]
  exact joinSep_jsSplit fenceDelim t (by decide)

/-- Witness for the amended C7 on a trim-stable fenced input (body abuts
the closing fence). -/
theorem segmenter_rejoin_wellFormed_witness :
    wellFormedFenced (strOf "fix:\n```rust\nfn a()\x7b\x7d```") = true
    ∧ joinSegments (formatSegments (strOf "fix:\n```rust\nfn a()\x7b\x7d```"))
        = strOf "fix:\n```rust\nfn a()\x7b\x7d```" :=
  ⟨by decide, segmenter_rejoin_wellFormed _ (by decide)⟩

/-! ## Session-state lemmas -/

theorem runEvs_deltas (iA iB : Nat) (pA pB : Str) (mid : List Ev) (hAB : iA ≠ iB) :
    ∀ (st : SessionState) (rA rB : Str),
      (∀ e ∈ mid, (∃ t, e = Ev.delta iA pA t) ∨ (∃ t, e = Ev.delta iB pB t)) →
      iA < st.history.length → iB < st.history.length →
      st.history[iA]? = some ⟨pA, rA⟩ → st.history[iB]? = some ⟨pB, rB⟩ →
      (runEvs st mid).history[iA]? = some ⟨pA, lastDeltaFrom iA rA mid⟩
      ∧ (runEvs st mid).history[iB]? = some ⟨pB, lastDeltaFrom iB rB mid⟩
      ∧ (runEvs st mid).loadingMap = st.loadingMap
      ∧ (runEvs st mid).history.length = st.history.length := by
  induction mid with
  | nil =>
    intro st rA rB hmid hAlt hBlt hgA hgB
    exact ⟨hgA, hgB, rfl, rfl⟩
  | cons e rest ih =>
    intro st rA rB hmid hAlt hBlt hgA hgB
    have hmid' : ∀ e ∈ rest, (∃ t, e = Ev.delta iA pA t) ∨ (∃ t, e = Ev.delta iB pB t) :=
      fun e he => hmid e (List.mem_cons_of_mem _ he)
    rcases hmid e (List.mem_cons_self _ _) with ⟨t, rfl⟩ | ⟨t, rfl⟩
    · have hrun : runEvs st (Ev.delta iA pA t :: rest)
          = runEvs (stepEv st (Ev.delta iA pA t)) rest := rfl
      have hA' : (stepEv st (Ev.delta iA pA t)).history[iA]? = some ⟨pA, t⟩ := by
        show (st.history.set iA ⟨pA, t⟩)[iA]? = some ⟨pA, t⟩
        exact List.getElem?_set_eq_of_lt _ hAlt
      have hB' : (stepEv st (Ev.delta iA pA t)).history[iB]? = some ⟨pB, rB⟩ := by
        show (st.history.set iA ⟨pA, t⟩)[iB]? = some ⟨pB, rB⟩
        rw [List.getElem?_set_ne hAB]; exact hgB
      have hlen : (stepEv st (Ev.delta iA pA t)).history.length = st.history.length := by
        show (st.history.set iA ⟨pA, t⟩).length = st.history.length
        simp
      obtain ⟨c1, c2, c3, c4⟩ := ih (stepEv st (Ev.delta iA pA t)) t rB hmid'
        (by rw [hlen]; exact hAlt) (by rw [hlen]; exact hBlt) hA' hB'
      refine ⟨?_, ?_, c3, by rw [hrun, c4, hlen]⟩
      · rw [hrun, c1]
        rw [show lastDeltaFrom iA rA (Ev.delta iA pA t :: rest)
            = lastDeltaFrom iA t rest from by simp [lastDeltaFrom]]
      · rw [hrun, c2]
        rw [show lastDeltaFrom iB rB (Ev.delta iA pA t :: rest)
            = lastDeltaFrom iB rB rest from by simp [lastDeltaFrom, hAB]]
    · have hrun : runEvs st (Ev.delta iB pB t :: rest)
          = runEvs (stepEv st (Ev.delta iB pB t)) rest := rfl
      have hB' : (stepEv st (Ev.delta iB pB t)).history[iB]? = some ⟨pB, t⟩ := by
        show (st.history.set iB ⟨pB, t⟩)[iB]? = some ⟨pB, t⟩
        exact List.getElem?_set_eq_of_lt _ hBlt
      have hA' : (stepEv st (Ev.delta iB pB t)).history[iA]? = some ⟨pA, rA⟩ := by
        show (st.history.set iB ⟨pB, t⟩)[iA]? = some ⟨pA, rA⟩
        rw [List.getElem?_set_ne (Ne.symm hAB)]; exact hgA
      have hlen : (stepEv st (Ev.delta iB pB t)).history.length = st.history.length := by
        show (st.history.set iB ⟨pB, t⟩).length = st.history.length
        simp
      obtain ⟨c1, c2, c3, c4⟩ := ih (stepEv st (Ev.delta iB pB t)) rA t hmid'
        (by rw [hlen]; exact hAlt) (by rw [hlen]; exact hBlt) hA' hB'
      refine ⟨?_, ?_, c3, by rw [hrun, c4, hlen]⟩
      · rw [hrun, c1]
        rw [show lastDeltaFrom iA rA (Ev.delta iB pB t :: rest)
            = lastDeltaFrom iA rA rest from by simp [lastDeltaFrom, Ne.symm hAB]]
      · rw [hrun, c2]
        rw [show lastDeltaFrom iB rB (Ev.delta iB pB t :: rest)
            = lastDeltaFrom iB t rest from by simp [lastDeltaFrom]]

theorem not_mem_filter_ne (l : List Nat) (i : Nat) :
    i ∉ l.filter fun j => j ≠ i := by
  intro hmem
  have h := (List.mem_filter.mp hmem).2
  simp at h

theorem mem_filter_ne_of_mem (l : List Nat) (i j : Nat) (h : j ∈ l.filter fun k => k ≠ i) :
    j ∈ l := (List.mem_filter.mp h).1

/-! ## C1: two interleaved submissions -/

/-- C1: starting from a consistent state (identity counter equal to the
history length, as established by load/clear), two submissions issued
before either completes receive distinct identities `iA` and
`iA + 1` (the second strictly greater); after any interleaving of their
streaming deltas followed by the two unconditional loading-flag clears (in
either completion order, covering success and failure alike), neither
identity is still marked loading; and the entry of each identity holds its
own prompt together with the last delta text streamed for that identity —
deltas of the other submission never overwrite it. -/
theorem concurrentSubmissions (s0 : SessionState) (pA pB : Str) (mid ends : List Ev)
    (hn : s0.nextMessageIndex = s0.history.length)
    (hmid : ∀ e ∈ mid,
      (∃ t, e = Ev.delta s0.nextMessageIndex pA t)
      ∨ (∃ t, e = Ev.delta (s0.nextMessageIndex + 1) pB t))
    (hends : ends = [Ev.clearLoading s0.nextMessageIndex,
                     Ev.clearLoading (s0.nextMessageIndex + 1)]
           ∨ ends = [Ev.clearLoading (s0.nextMessageIndex + 1),
                     Ev.clearLoading s0.nextMessageIndex]) :
    s0.nextMessageIndex < (stepEv s0 (Ev.submitStart pA)).nextMessageIndex
    ∧ s0.nextMessageIndex ∉
        (runEvs s0 ([Ev.submitStart pA, Ev.submitStart pB] ++ mid ++ ends)).loadingMap
    ∧ s0.nextMessageIndex + 1 ∉
        (runEvs s0 ([Ev.submitStart pA, Ev.submitStart pB] ++ mid ++ ends)).loadingMap
    ∧ (runEvs s0 ([Ev.submitStart pA, Ev.submitStart pB] ++ mid
        ++ ends)).history[s0.nextMessageIndex]?
        = some ⟨pA, lastDeltaFrom s0.nextMessageIndex [] mid⟩
    ∧ (runEvs s0 ([Ev.submitStart pA, Ev.submitStart pB] ++ mid
        ++ ends)).history[s0.nextMessageIndex + 1]?
        = some ⟨pB, lastDeltaFrom (s0.nextMessageIndex + 1) [] mid⟩ := by
  have hsplit : runEvs s0 ([Ev.submitStart pA, Ev.submitStart pB] ++ mid ++ ends)
      = runEvs (runEvs (runEvs s0 [Ev.submitStart pA, Ev.submitStart pB]) mid) ends := by
    rw [runEvs, List.foldl_append, List.foldl_append]; rfl
  set iA := s0.nextMessageIndex with hiA
  have hs2 : runEvs s0 [Ev.submitStart pA, Ev.submitStart pB]
      = { history := (s0.history ++ [⟨pA, []⟩]) ++ [⟨pB, []⟩],
          loadingMap := (s0.loadingMap ++ [iA]) ++ [iA + 1],
          nextMessageIndex := iA + 2 } := rfl
  have hlen1 : (s0.history ++ [(⟨pA, []⟩ : ChatHistory)]).length = s0.history.length + 1 := by
    simp
  have hA2 : ((s0.history ++ [(⟨pA, []⟩ : ChatHistory)]) ++ [⟨pB, []⟩])[iA]?
      = some ⟨pA, []⟩ := by
    rw [List.getElem?_append, if_pos (by rw [hlen1]; omega)]
    rw [List.getElem?_append, if_neg (by omega)]
    rw [hn]
    simp
  have hB2 : ((s0.history ++ [(⟨pA, []⟩ : ChatHistory)]) ++ [⟨pB, []⟩])[iA + 1]?
      = some ⟨pB, []⟩ := by
    rw [List.getElem?_append, if_neg (by rw [hlen1]; omega)]
    rw [hlen1, hn]
    simp
  have hABne : iA ≠ iA + 1 := by omega
  obtain ⟨c1, c2, c3, c4⟩ := runEvs_deltas iA (iA + 1) pA pB mid hABne
    (runEvs s0 [Ev.submitStart pA, Ev.submitStart pB]) [] [] hmid
    (by rw [hs2]; show iA < ((s0.history ++ _) ++ _).length; simp; omega)
    (by rw [hs2]; show iA + 1 < ((s0.history ++ _) ++ _).length; simp; omega)
    (by rw [hs2]; exact hA2) (by rw [hs2]; exact hB2)
  refine ⟨Nat.lt_succ_self _, ?_, ?_, ?_, ?_⟩
  · rw [hsplit]
    rcases hends with rfl | rfl
    · intro hmem
      have h1 : iA ∈ ((runEvs (runEvs s0 [Ev.submitStart pA, Ev.submitStart pB])
          mid).loadingMap.filter fun j => j ≠ iA) :=
        mem_filter_ne_of_mem _ (iA + 1) iA hmem
      exact not_mem_filter_ne _ iA h1
    · intro hmem
      exact not_mem_filter_ne _ iA hmem
  · rw [hsplit]
    rcases hends with rfl | rfl
    · intro hmem
      exact not_mem_filter_ne _ (iA + 1) hmem
    · intro hmem
      have h1 : iA + 1 ∈ ((runEvs (runEvs s0 [Ev.submitStart pA, Ev.submitStart pB])
          mid).loadingMap.filter fun j => j ≠ (iA + 1)) :=
        mem_filter_ne_of_mem _ iA (iA + 1) hmem
      exact not_mem_filter_ne _ (iA + 1) h1
  · rw [hsplit]
    rcases hends with rfl | rfl
    · exact c1
    · exact c1
  · rw [hsplit]
    rcases hends with rfl | rfl
    · exact c2
    · exact c2

/-- Witness for C1: two concrete submissions with interleaved deltas,
both loading flags cleared, each entry holding its own last delta. -/
theorem concurrentSubmissions_witness :
    (0 : Nat) < (stepEv sessionStart (Ev.submitStart (strOf "a"))).nextMessageIndex
    ∧ (0 : Nat) ∉
        (runEvs sessionStart ([Ev.submitStart (strOf "a"), Ev.submitStart (strOf "b")]
          ++ midExample ++ endsExample)).loadingMap
    ∧ (0 : Nat) + 1 ∉
        (runEvs sessionStart ([Ev.submitStart (strOf "a"), Ev.submitStart (strOf "b")]
          ++ midExample ++ endsExample)).loadingMap
    ∧ (runEvs sessionStart ([Ev.submitStart (strOf "a"), Ev.submitStart (strOf "b")]
        ++ midExample ++ endsExample)).history[(0 : Nat)]?
        = some ⟨strOf "a", lastDeltaFrom 0 [] midExample⟩
    ∧ (runEvs sessionStart ([Ev.submitStart (strOf "a"), Ev.submitStart (strOf "b")]
        ++ midExample ++ endsExample)).history[(0 : Nat) + 1]?
        = some ⟨strOf "b", lastDeltaFrom ((0 : Nat) + 1) [] midExample⟩ :=
  concurrentSubmissions sessionStart (strOf "a") (strOf "b") midExample endsExample
    rfl
    (by
      intro e he
      simp only [midExample, List.mem_cons, List.not_mem_nil, or_false] at he
      rcases he with rfl | rfl | rfl
      · exact Or.inl ⟨strOf "x", rfl⟩
      · exact Or.inr ⟨strOf "y", rfl⟩
      · exact Or.inl ⟨strOf "xz", rfl⟩)
    (Or.inl rfl)

/-- Witness for C2: window 4, six prior pairs, ten outbound messages. -/
theorem promptBuilder_window_witness :
    (4 : Nat) ≤ historySix.length
    ∧ (analyzeCodeMessagesW 4 (strOf "q") (strOf "c") true historySix
        (strOf "Rust")).length = 2 * 4 + 2 :=
  ⟨by decide,
   (promptBuilder_window 4 (strOf "q") (strOf "c") true historySix (strOf "Rust")
      (by decide)).2.2⟩

end SolPg
